import Mathlib

set_option maxRecDepth 8000

/-!
Verification of the bcrypto RSA engine (`rsa.c`).

RSA key material is a set of up to eight big-endian byte buffers.  A C
buffer is a `(uint8_t *, size_t)` pair; a NULL pointer is modelled as
`none` and a present buffer as `some bytes`.  Bytes are `Nat` values
(the C type guarantees them `< 256`; lemmas that need this carry it as
an explicit hypothesis).  OpenSSL `BIGNUM`s are modelled as `Nat`
(they are non-negative everywhere in this code), and fallible BIGNUM
operations return `Option`.
-/

/-- Fuel-indexed form of the bit-counting loop in `bcrypto_count_bits`:
structural recursion on the fuel keeps the function kernel-computable,
and any fuel of at least `oct` yields the same value (`octBitsF_congr`). -/
def octBitsF (fuel oct : Nat) : Nat :=
  match fuel with
  | 0 => 0
  | f + 1 => if oct = 0 then 0 else octBitsF f (oct / 2) + 1

/-- Model of the bit-counting loop in `bcrypto_count_bits` applied to the
leading significant octet: number of binary digits of `oct`
(`octBits_eq` recovers the loop-shaped recurrence). -/
def octBits (oct : Nat) : Nat := octBitsF oct oct

/-- Fuel-indexed big-endian byte expansion; one fuel unit per octet, so
any fuel of at least `n` yields the same list (`natToBytesF_congr`). -/
def natToBytesF (fuel n : Nat) : List Nat :=
  match fuel with
  | 0 => []
  | f + 1 => if n = 0 then [] else natToBytesF f (n / 256) ++ [n % 256]

/-- Big-endian bytes of a `Nat`, minimal form (`BN_bn2bin`): empty for 0,
otherwise no leading zero byte (`natToBytes_pos_eq` recovers the
recurrence). -/
def natToBytes (n : Nat) : List Nat := natToBytesF n n

/-- Value of a big-endian byte string (`BN_bin2bn`). -/
def bytesToNat (l : List Nat) : Nat :=
  l.foldl (fun acc b => acc * 256 + b) 0

/-- Value of a buffer: a NULL buffer reads as zero (`BN_bin2bn(NULL, 0)`
never occurs; the code always passes the stored pointer/length pair and a
missing field is length 0, value 0). -/
def bufToNat : Option (List Nat) → Nat
  | none => 0
  | some l => bytesToNat l

/-- `bcrypto_count_bits(in, in_len)`: 0 for a NULL or all-zero buffer;
otherwise leading zero bytes are stripped and the remaining octets counted
as `8 * (count - 1) + (bits of the leading significant octet)`. -/
def bcrypto_count_bits : Option (List Nat) → Nat
  | none => 0
  | some l =>
    match l.dropWhile (fun b => b == 0) with
    | [] => 0
    | b :: rest => rest.length * 8 + octBits b

/-- The byte the C code reads as `key->ed[key->el - 1]` (the last octet of
the buffer).  Only evaluated on buffers already known non-empty. -/
def lastByte : Option (List Nat) → Nat
  | none => 0
  | some l => l.getLast?.getD 0

/-- The eight component buffers of `bcrypto_rsa_key_t`:
modulus `nd`, public exponent `ed`, private exponent `dd`, primes `pd`,
`qd`, CRT exponents `dpd`, `dqd`, CRT coefficient `qid`. -/
structure RsaKey where
  nd : Option (List Nat)
  ed : Option (List Nat)
  dd : Option (List Nat)
  pd : Option (List Nat)
  qd : Option (List Nat)
  dpd : Option (List Nat)
  dqd : Option (List Nat)
  qid : Option (List Nat)
deriving DecidableEq

/-- `bcrypto_rsa_sane_pubkey`: modulus bit length in [512, 16384],
exponent bit length in [2, 33], last exponent octet odd. -/
def bcrypto_rsa_sane_pubkey (key : RsaKey) : Bool :=
  let nb := bcrypto_count_bits key.nd
  if nb < 512 ∨ nb > 16384 then false
  else
    let eb := bcrypto_count_bits key.ed
    if eb < 2 ∨ eb > 33 then false
    else if lastByte key.ed % 2 = 0 then false
    else true

/-- `bcrypto_rsa_sane_privkey`: the public checks plus bit-length bounds
on `d`, `p`, `q`, `dp`, `dq`, `qInv`. -/
def bcrypto_rsa_sane_privkey (key : RsaKey) : Bool :=
  if ¬ bcrypto_rsa_sane_pubkey key then false
  else
    let nb := bcrypto_count_bits key.nd
    let db := bcrypto_count_bits key.dd
    if db = 0 ∨ db > nb then false
    else
      let pb := bcrypto_count_bits key.pd
      let qb := bcrypto_count_bits key.qd
      if pb + qb ≠ nb then false
      else
        let dpb := bcrypto_count_bits key.dpd
        if dpb = 0 ∨ dpb > pb then false
        else
          let dqb := bcrypto_count_bits key.dqd
          if dqb = 0 ∨ dqb > qb then false
          else
            let qib := bcrypto_count_bits key.qid
            if qib = 0 ∨ qib > pb then false
            else true

/-- `bcrypto_rsa_sane_compute`: the relaxed validity check used before key
completion (`is_valid_for_completion`). -/
def bcrypto_rsa_sane_compute (key : RsaKey) : Bool :=
  let nb := bcrypto_count_bits key.nd
  let eb := bcrypto_count_bits key.ed
  let db := bcrypto_count_bits key.dd
  let pb := bcrypto_count_bits key.pd
  let qb := bcrypto_count_bits key.qd
  let dpb := bcrypto_count_bits key.dpd
  let dqb := bcrypto_count_bits key.dqd
  let qib := bcrypto_count_bits key.qid
  if pb = 0 ∨ qb = 0 then false
  else if eb = 0 ∧ db = 0 then false
  else if nb ≠ 0 ∧ (nb < 512 ∨ nb > 16384) then false
  else if nb ≠ 0 ∧ pb + qb ≠ nb then false
  else if eb ≠ 0 ∧ (eb < 2 ∨ eb > 33) then false
  else if eb ≠ 0 ∧ lastByte key.ed % 2 = 0 then false
  else if db ≠ 0 ∧ db > pb + qb then false
  else if dpb ≠ 0 ∧ dpb > pb then false
  else if dqb ≠ 0 ∧ dqb > qb then false
  else if qib ≠ 0 ∧ qib > pb then false
  else true

/-- `bcrypto_rsa_needs_compute`: true iff any of the six completable
fields (`n`, `e`, `d`, `dp`, `dq`, `qInv`) has bit length 0. -/
def bcrypto_rsa_needs_compute (key : RsaKey) : Bool :=
  bcrypto_count_bits key.nd = 0
    ∨ bcrypto_count_bits key.ed = 0
    ∨ bcrypto_count_bits key.dd = 0
    ∨ bcrypto_count_bits key.dpd = 0
    ∨ bcrypto_count_bits key.dqd = 0
    ∨ bcrypto_count_bits key.qid = 0

/-- The eight numeric components carried by the transient OpenSSL `RSA`
object (`bcrypto_rsa_key2priv` reads them with `BN_bin2bn`, which is
`bufToNat` here). -/
structure RsaVals where
  n : Nat
  e : Nat
  d : Nat
  p : Nat
  q : Nat
  dp : Nat
  dq : Nat
  qi : Nat
deriving DecidableEq

/-- `bcrypto_rsa_key2priv`: read all eight buffers as numbers. -/
def toVals (k : RsaKey) : RsaVals :=
  ⟨bufToNat k.nd, bufToNat k.ed, bufToNat k.dd, bufToNat k.pd,
   bufToNat k.qd, bufToNat k.dpd, bufToNat k.dqd, bufToNat k.qid⟩

/-- `bcrypto_rsa_priv2key`: write all eight numbers back as buffers with
`BN_bn2bin` of `BN_num_bytes` octets, i.e. minimal big-endian form (a
zero value becomes a present, zero-length buffer in the arena). -/
def privFromVals (v : RsaVals) : RsaKey :=
  ⟨some (natToBytes v.n), some (natToBytes v.e), some (natToBytes v.d),
   some (natToBytes v.p), some (natToBytes v.q), some (natToBytes v.dp),
   some (natToBytes v.dq), some (natToBytes v.qi)⟩

/-- `bcrypto_rsa_pub2key`: only `n` and `e` are populated; the remaining
buffers stay NULL (`bcrypto_rsa_key_init` zeroes the struct). -/
def pubFromVals (n e : Nat) : RsaKey :=
  ⟨some (natToBytes n), some (natToBytes e), none, none, none, none, none, none⟩

/-- `BN_mod_inverse` on non-negative values: fails (returns NULL) when the
modulus is zero or the argument is not invertible; the inverse is the
Bezout coefficient reduced into `[0, n)`. -/
def bn_mod_inverse (a n : Nat) : Option Nat :=
  if n = 0 then none
  else if n = 1 then some 0
  else if Nat.gcd (a % n) n = 1 then some ((Nat.gcdA (a % n) n % (n : Int)).toNat)
  else none

/-- `BN_mod`: fails on a zero modulus. -/
def bn_mod (a n : Nat) : Option Nat :=
  if n = 0 then none else some (a % n)

/-- The arithmetic core of `bcrypto_rsa_privkey_compute` (lines 621-704),
acting on the numeric values: derive `n` from `p * q` when zero, `e`/`d`
as inverses modulo `(p-1)*(q-1)` when zero, both CRT exponents when
either is zero, and `qInv` when zero.  Note `sane_compute` guarantees
`p, q ≥ 1`, so the truncated `Nat` subtractions agree with `BN_sub`. -/
def computeVals (n0 e0 d0 p0 q0 dp0 dq0 qi0 : Nat) : Option RsaVals :=
  (if e0 = 0 then bn_mod_inverse d0 ((p0 - 1) * (q0 - 1)) else some e0).bind fun e1 =>
  (if d0 = 0 then bn_mod_inverse e1 ((p0 - 1) * (q0 - 1)) else some d0).bind fun d1 =>
  (if dp0 = 0 ∨ dq0 = 0 then
     (bn_mod d1 (p0 - 1)).bind fun a => (bn_mod d1 (q0 - 1)).map fun b => (a, b)
   else some (dp0, dq0)).bind fun dpq =>
  (if qi0 = 0 then bn_mod_inverse q0 p0 else some qi0).bind fun qi1 =>
  some ⟨if n0 = 0 then p0 * q0 else n0, e1, d1, p0, q0, dpq.1, dpq.2, qi1⟩

/-- `bcrypto_rsa_privkey_compute`: `none` models returning `false`
(invalid input or a failed BIGNUM operation); `some none` models
returning `true` with `*key = NULL` (nothing to derive); `some (some k)`
models returning `true` with `*key` set to the freshly built key. -/
def bcrypto_rsa_privkey_compute (priv : RsaKey) : Option (Option RsaKey) :=
  if bcrypto_rsa_sane_compute priv = false then none
  else if bcrypto_rsa_needs_compute priv = false then some none
  else
    match computeVals (bufToNat priv.nd) (bufToNat priv.ed) (bufToNat priv.dd)
        (bufToNat priv.pd) (bufToNat priv.qd) (bufToNat priv.dpd)
        (bufToNat priv.dqd) (bufToNat priv.qid) with
    | none => none
    | some v => some (some (privFromVals v))

/-!
DER codec.  `bcrypto_rsa_privkey_export/import` delegate to OpenSSL
`i2d_RSAPrivateKey`/`d2i_RSAPrivateKey` (and the `RSAPublicKey` pair),
which are not part of this repository's sources.  The codec below is
modelled from the spec (section 4.3): the classical `RSAPrivateKey` /
`RSAPublicKey` DER grammars - a SEQUENCE of INTEGERs in the order
version(0), n, e, d, p, q, dp, dq, qInv for private keys and n, e for
public keys - with the decoder rejecting trailing garbage, a wrong field
count, and negative INTEGER encodings.
-/

/-- Modelled from the spec: DER definite length octets (short form below
128, long form otherwise). -/
def encLen (n : Nat) : List Nat :=
  if n < 128 then [n] else (128 + (natToBytes n).length) :: natToBytes n

/-- Modelled from the spec: parse DER definite length octets, returning
the length and the remaining input; rejects the indefinite form and
non-minimal long forms. -/
def decLen : List Nat → Option (Nat × List Nat)
  | [] => none
  | b :: rest =>
    if b < 128 then some (b, rest)
    else if b - 128 = 0 then none
    else if rest.length < b - 128 then none
    else if (rest.take (b - 128)).headD 0 = 0 then none
    else if bytesToNat (rest.take (b - 128)) < 128 then none
    else some (bytesToNat (rest.take (b - 128)), rest.drop (b - 128))

/-- Modelled from the spec: content octets of a non-negative DER INTEGER
(minimal big-endian, a leading 0x00 added when the top bit is set). -/
def intContent (n : Nat) : List Nat :=
  match natToBytes n with
  | [] => [0]
  | b :: t => if 128 ≤ b then 0 :: b :: t else b :: t

/-- Modelled from the spec: one DER INTEGER TLV (tag 0x02). -/
def encInt (n : Nat) : List Nat :=
  2 :: (encLen (intContent n).length ++ intContent n)

/-- Modelled from the spec: parse one DER INTEGER TLV; negative encodings
(leading content octet with the top bit set) and non-minimal encodings
are rejected. -/
def decInt : List Nat → Option (Nat × List Nat)
  | [] => none
  | t :: rest =>
    if t = 2 then
      match decLen rest with
      | none => none
      | some (len, rest2) =>
        if len = 0 then none
        else if rest2.length < len then none
        else if 128 ≤ (rest2.take len).headD 0 then none
        else if (rest2.take len).headD 0 = 0 ∧ 1 < len ∧
            (rest2.take len).tail.headD 0 < 128 then none
        else some (bytesToNat (rest2.take len), rest2.drop len)
    else none

/-- Concatenated DER INTEGER TLVs. -/
def encIntList : List Nat → List Nat
  | [] => []
  | v :: vs => encInt v ++ encIntList vs

/-- Parse exactly `k` consecutive DER INTEGERs. -/
def decInts : Nat → List Nat → Option (List Nat × List Nat)
  | 0, l => some ([], l)
  | k + 1, l =>
    match decInt l with
    | none => none
    | some (v, l') =>
      match decInts k l' with
      | none => none
      | some (vs, l'') => some (v :: vs, l'')

/-- Modelled from the spec: DER SEQUENCE TLV (tag 0x30) around a body. -/
def seqRaw (body : List Nat) : List Nat :=
  48 :: (encLen body.length ++ body)

/-- Modelled from the spec: DER SEQUENCE of INTEGERs. -/
def encSeqInts (vs : List Nat) : List Nat :=
  seqRaw (encIntList vs)

/-- Modelled from the spec: parse a DER SEQUENCE of exactly `k` INTEGERs,
consuming the whole input (trailing octets after the SEQUENCE are
rejected as malformed, as is a field count other than `k`). -/
def decSeqInts (k : Nat) (raw : List Nat) : Option (List Nat) :=
  match raw with
  | [] => none
  | t :: rest =>
    if t = 48 then
      match decLen rest with
      | none => none
      | some (len, content) =>
        if content.length = len then
          match decInts k content with
          | some (vs, []) => some vs
          | _ => none
        else none
    else none

/-- Modelled from the spec: `i2d_RSAPrivateKey` - SEQUENCE of version(0),
n, e, d, p, q, dp, dq, qInv. -/
def i2d_RSAPrivateKey (v : RsaVals) : List Nat :=
  encSeqInts [0, v.n, v.e, v.d, v.p, v.q, v.dp, v.dq, v.qi]

/-- Modelled from the spec: `d2i_RSAPrivateKey` - parse the nine-INTEGER
SEQUENCE, requiring version 0. -/
def d2i_RSAPrivateKey (raw : List Nat) : Option RsaVals :=
  match decSeqInts 9 raw with
  | some [ver, n, e, d, p, q, dp, dq, qi] =>
    if ver = 0 then some ⟨n, e, d, p, q, dp, dq, qi⟩ else none
  | _ => none

/-- Modelled from the spec: `i2d_RSAPublicKey` - SEQUENCE of n, e. -/
def i2d_RSAPublicKey (n e : Nat) : List Nat :=
  encSeqInts [n, e]

/-- Modelled from the spec: `d2i_RSAPublicKey`. -/
def d2i_RSAPublicKey (raw : List Nat) : Option (Nat × Nat) :=
  match decSeqInts 2 raw with
  | some [n, e] => some (n, e)
  | _ => none

/-- `bcrypto_rsa_privkey_export`: reject an insane key, then DER-encode
the numeric values read from the buffers. -/
def bcrypto_rsa_privkey_export (priv : RsaKey) : Option (List Nat) :=
  if ¬ bcrypto_rsa_sane_privkey priv then none
  else some (i2d_RSAPrivateKey (toVals priv))

/-- `bcrypto_rsa_privkey_import`: DER-decode and rebuild the key with
`bcrypto_rsa_priv2key`; no validity check is applied to the result. -/
def bcrypto_rsa_privkey_import (raw : List Nat) : Option RsaKey :=
  match d2i_RSAPrivateKey raw with
  | none => none
  | some v => some (privFromVals v)

/-- `bcrypto_rsa_pubkey_export`. -/
def bcrypto_rsa_pubkey_export (pub : RsaKey) : Option (List Nat) :=
  if ¬ bcrypto_rsa_sane_pubkey pub then none
  else some (i2d_RSAPublicKey (bufToNat pub.nd) (bufToNat pub.ed))

/-- `bcrypto_rsa_pubkey_import`: no validity check on the decoded key. -/
def bcrypto_rsa_pubkey_import (raw : List Nat) : Option RsaKey :=
  match d2i_RSAPublicKey raw with
  | none => none
  | some (n, e) => some (pubFromVals n e)

/-- `bcrypto_rsa_type`: map an algorithm name to its NID, `-1` when the
name is NULL or unrecognised. -/
def bcrypto_rsa_type (alg : Option String) : Int :=
  match alg with
  | none => -1
  | some a =>
    if a = "md5" then 4
    else if a = "ripemd160" then 117
    else if a = "sha1" then 64
    else if a = "sha224" then 675
    else if a = "sha256" then 672
    else if a = "sha384" then 673
    else if a = "sha512" then 674
    else -1

/-- The digest names accepted by `bcrypto_rsa_type`. -/
def supportedAlgs : List String :=
  ["md5", "ripemd160", "sha1", "sha224", "sha256", "sha384", "sha512"]

/-- The shared message guard `msg == NULL || msg_len < 1 || msg_len > 64`
appearing verbatim in both `bcrypto_rsa_sign` and `bcrypto_rsa_verify`. -/
def bad_msg : Option (List Nat) → Bool
  | none => true
  | some m => m.length < 1 ∨ m.length > 64

/-- The signature guard `sig == NULL || sig_len < 1 || sig_len > 3072` of
`bcrypto_rsa_verify`. -/
def bad_sig : Option (List Nat) → Bool
  | none => true
  | some s => s.length < 1 ∨ s.length > 3072

/-- `bcrypto_rsa_verify`, parameterised by the external `RSA_verify`
primitive `V` (type, message, signature, key).  Every failure path - a
`goto fail` in the C - returns the bare boolean `false`. -/
def bcrypto_rsa_verify (V : Int → List Nat → List Nat → RsaKey → Bool)
    (alg : Option String) (msg sig : Option (List Nat)) (pub : RsaKey) : Bool :=
  if bcrypto_rsa_type alg = -1 then false
  else if bad_msg msg then false
  else if bad_sig sig then false
  else if ¬ bcrypto_rsa_sane_pubkey pub then false
  else V (bcrypto_rsa_type alg) (msg.getD []) (sig.getD []) pub

/-- `bcrypto_rsa_sign`, parameterised by the external `RSA_sign`
primitive `S` (blinding is call-scoped state with no bearing on the
result value and is not modelled). -/
def bcrypto_rsa_sign (S : Int → List Nat → RsaKey → Option (List Nat))
    (alg : Option String) (msg : Option (List Nat)) (priv : RsaKey) :
    Option (List Nat) :=
  if bcrypto_rsa_type alg = -1 then none
  else if bad_msg msg then none
  else if ¬ bcrypto_rsa_sane_privkey priv then none
  else S (bcrypto_rsa_type alg) (msg.getD []) priv

/-! Arithmetic lemmas about the byte-string representation. -/

theorem octBitsF_congr : ∀ f1 f2 oct : Nat, oct ≤ f1 → oct ≤ f2 →
    octBitsF f1 oct = octBitsF f2 oct := by
  intro f1
  induction f1 with
  | zero =>
    intro f2 oct h1 h2
    have h0 : oct = 0 := Nat.le_zero.mp h1
    subst h0
    cases f2 <;> rfl
  | succ m ih =>
    intro f2 oct h1 h2
    cases f2 with
    | zero =>
      have h0 : oct = 0 := Nat.le_zero.mp h2
      subst h0
      rfl
    | succ m2 =>
      show (if oct = 0 then 0 else octBitsF m (oct / 2) + 1)
        = (if oct = 0 then 0 else octBitsF m2 (oct / 2) + 1)
      by_cases h0 : oct = 0
      · rw [if_pos h0, if_pos h0]
      · rw [if_neg h0, if_neg h0]
        have hd : oct / 2 < oct :=
          Nat.div_lt_self (Nat.pos_of_ne_zero h0) (by norm_num)
        rw [ih m2 (oct / 2) (by omega) (by omega)]

theorem octBits_eq (oct : Nat) :
    octBits oct = if oct = 0 then 0 else octBits (oct / 2) + 1 := by
  by_cases h0 : oct = 0
  · subst h0
    rfl
  · rw [if_neg h0]
    obtain ⟨m, rfl⟩ : ∃ m, oct = m + 1 := ⟨oct - 1, by omega⟩
    show (if m + 1 = 0 then 0 else octBitsF m ((m + 1) / 2) + 1) = _
    rw [if_neg (by omega)]
    have hd : (m + 1) / 2 < m + 1 := Nat.div_lt_self (by omega) (by norm_num)
    rw [octBitsF_congr m ((m + 1) / 2) ((m + 1) / 2) (by omega) (Nat.le_refl _)]
    rfl

theorem natToBytesF_congr : ∀ f1 f2 n : Nat, n ≤ f1 → n ≤ f2 →
    natToBytesF f1 n = natToBytesF f2 n := by
  intro f1
  induction f1 with
  | zero =>
    intro f2 n h1 h2
    have h0 : n = 0 := Nat.le_zero.mp h1
    subst h0
    cases f2 <;> rfl
  | succ m ih =>
    intro f2 n h1 h2
    cases f2 with
    | zero =>
      have h0 : n = 0 := Nat.le_zero.mp h2
      subst h0
      rfl
    | succ m2 =>
      show (if n = 0 then [] else natToBytesF m (n / 256) ++ [n % 256])
        = (if n = 0 then [] else natToBytesF m2 (n / 256) ++ [n % 256])
      by_cases h0 : n = 0
      · rw [if_pos h0, if_pos h0]
      · rw [if_neg h0, if_neg h0]
        have hd : n / 256 < n :=
          Nat.div_lt_self (Nat.pos_of_ne_zero h0) (by norm_num)
        rw [ih m2 (n / 256) (by omega) (by omega)]

theorem natToBytes_zero : natToBytes 0 = [] := rfl

theorem natToBytes_pos_eq (n : Nat) (h : n ≠ 0) :
    natToBytes n = natToBytes (n / 256) ++ [n % 256] := by
  obtain ⟨m, rfl⟩ : ∃ m, n = m + 1 := ⟨n - 1, by omega⟩
  show (if m + 1 = 0 then [] else natToBytesF m ((m + 1) / 256) ++ [(m + 1) % 256]) = _
  rw [if_neg (by omega)]
  have hd : (m + 1) / 256 < m + 1 := Nat.div_lt_self (by omega) (by norm_num)
  rw [natToBytesF_congr m ((m + 1) / 256) ((m + 1) / 256) (by omega) (Nat.le_refl _)]
  rfl

theorem bytesToNat_nil : bytesToNat [] = 0 := rfl

theorem bytesToNat_aux (a : Nat) (l : List Nat) :
    l.foldl (fun acc b => acc * 256 + b) a = a * 256 ^ l.length + bytesToNat l := by
  induction l generalizing a with
  | nil => simp [bytesToNat]
  | cons b t ih =>
    show List.foldl _ (a * 256 + b) t = _
    rw [ih (a * 256 + b)]
    have hb : bytesToNat (b :: t) = b * 256 ^ t.length + bytesToNat t := by
      show List.foldl _ (0 * 256 + b) t = _
      have h0 : 0 * 256 + b = b := by omega
      rw [h0, ih b]
    rw [hb]
    simp [List.length_cons]
    ring

theorem bytesToNat_cons (b : Nat) (t : List Nat) :
    bytesToNat (b :: t) = b * 256 ^ t.length + bytesToNat t := by
  show List.foldl _ (0 * 256 + b) t = _
  have h0 : 0 * 256 + b = b := by omega
  rw [h0, bytesToNat_aux b t]

theorem bytesToNat_concat (l : List Nat) (b : Nat) :
    bytesToNat (l ++ [b]) = bytesToNat l * 256 + b := by
  unfold bytesToNat
  rw [List.foldl_append]
  rfl

theorem bytesToNat_natToBytes (n : Nat) : bytesToNat (natToBytes n) = n := by
  induction n using Nat.strong_induction_on with
  | _ n ih =>
    by_cases h : n = 0
    · subst h
      rw [natToBytes_zero, bytesToNat_nil]
    · rw [natToBytes_pos_eq n h, bytesToNat_concat,
        ih (n / 256) (Nat.div_lt_self (Nat.pos_of_ne_zero h) (by norm_num))]
      omega

theorem natToBytes_ne_nil (n : Nat) (h : n ≠ 0) : natToBytes n ≠ [] := by
  rw [natToBytes_pos_eq n h]
  simp

theorem natToBytes_all_lt (n : Nat) : ∀ b ∈ natToBytes n, b < 256 := by
  induction n using Nat.strong_induction_on with
  | _ n ih =>
    by_cases h : n = 0
    · subst h
      rw [natToBytes_zero]
      simp
    · rw [natToBytes_pos_eq n h]
      intro b hb
      rcases List.mem_append.mp hb with hb' | hb'
      · exact ih (n / 256) (Nat.div_lt_self (Nat.pos_of_ne_zero h) (by norm_num)) b hb'
      · have : b = n % 256 := by simpa using hb'
        subst this
        exact Nat.mod_lt _ (by norm_num)

theorem natToBytes_head_ne_zero :
    ∀ n : Nat, n ≠ 0 → ∀ b, (natToBytes n).head? = some b → b ≠ 0 := by
  intro n
  induction n using Nat.strong_induction_on with
  | _ n ih =>
    intro h b hb
    rw [natToBytes_pos_eq n h] at hb
    by_cases hd : n / 256 = 0
    · rw [hd, natToBytes_zero, List.nil_append] at hb
      have hn : n < 256 := by
        rcases Nat.lt_or_ge n 256 with h' | h'
        · exact h'
        · exact absurd hd (by
            have : 1 ≤ n / 256 := (Nat.le_div_iff_mul_le (by norm_num)).mpr (by omega)
            omega)
      have hbn : n % 256 = b := by simpa using hb
      rw [← hbn, Nat.mod_eq_of_lt hn]
      exact h
    · obtain ⟨c, t, hct⟩ := List.exists_cons_of_ne_nil (natToBytes_ne_nil _ hd)
      rw [hct] at hb
      have hcb : c = b := by simpa using hb
      rw [← hcb]
      exact ih (n / 256) (Nat.div_lt_self (Nat.pos_of_ne_zero h) (by norm_num)) hd c
        (by rw [hct]; rfl)

theorem bytesToNat_pos (l : List Nat) (b : Nat) (h : l.head? = some b) (hb : b ≠ 0) :
    0 < bytesToNat l := by
  cases l with
  | nil => simp at h
  | cons c t =>
    have hc : c = b := by simpa using h
    subst hc
    rw [bytesToNat_cons]
    have h1 : 0 < c * 256 ^ t.length :=
      Nat.mul_pos (Nat.pos_of_ne_zero hb) (Nat.pos_pow_of_pos _ (by norm_num))
    omega

theorem natToBytes_bytesToNat :
    ∀ l : List Nat, (∀ b, l.head? = some b → b ≠ 0) → (∀ x ∈ l, x < 256) →
      natToBytes (bytesToNat l) = l := by
  intro l
  induction l using List.reverseRecOn with
  | nil =>
    intro _ _
    rw [bytesToNat_nil, natToBytes_zero]
  | append_singleton l' x ih =>
    intro hhead hlt
    rw [bytesToNat_concat]
    have hx : x < 256 := hlt x (by simp)
    cases l' with
    | nil =>
      have hxz : x ≠ 0 := hhead x (by simp)
      rw [bytesToNat_nil]
      rw [natToBytes_pos_eq (0 * 256 + x) (by omega)]
      have h1 : (0 * 256 + x) / 256 = 0 := by omega
      have h2 : (0 * 256 + x) % 256 = x := by omega
      rw [h1, h2, natToBytes_zero]
    | cons c t =>
      have hc : c ≠ 0 := hhead c (by simp)
      have hm : 0 < bytesToNat (c :: t) := bytesToNat_pos _ c rfl hc
      rw [natToBytes_pos_eq (bytesToNat (c :: t) * 256 + x) (by omega)]
      have h1 : (bytesToNat (c :: t) * 256 + x) / 256 = bytesToNat (c :: t) := by omega
      have h2 : (bytesToNat (c :: t) * 256 + x) % 256 = x := by omega
      have hih : natToBytes (bytesToNat (c :: t)) = c :: t := by
        refine ih (fun b hb => ?_) (fun y hy => ?_)
        · have : c = b := by simpa using hb
          rw [← this]
          exact hc
        · refine hlt y ?_
          rcases List.mem_cons.mp hy with h' | h'
          · rw [h']
            exact List.mem_cons_self _ _
          · exact List.mem_cons_of_mem _ (List.mem_append_left _ h')
      rw [h1, h2, hih]

theorem bufToNat_natToBytes (v : Nat) : bufToNat (some (natToBytes v)) = v :=
  bytesToNat_natToBytes v

/-! Round-trip and rejection lemmas for the DER codec model. -/

theorem bytesToNat_cons_zero (l : List Nat) : bytesToNat (0 :: l) = bytesToNat l := by
  rw [bytesToNat_cons]
  simp

theorem decLen_encLen (n : Nat) (r : List Nat) : decLen (encLen n ++ r) = some (n, r) := by
  by_cases h : n < 128
  · simp [encLen, h, decLen]
  · push_neg at h
    have hnz : n ≠ 0 := by omega
    have hne : natToBytes n ≠ [] := natToBytes_ne_nil n hnz
    obtain ⟨c, t, hct⟩ := List.exists_cons_of_ne_nil hne
    have hL : (natToBytes n).length ≠ 0 := by
      rw [hct]
      simp
    rw [encLen, if_neg (by omega : ¬ n < 128), List.cons_append]
    simp only [decLen]
    rw [if_neg (by omega : ¬ 128 + (natToBytes n).length < 128)]
    rw [Nat.add_sub_cancel_left]
    rw [if_neg hL]
    rw [if_neg (by rw [List.length_append]; omega :
      ¬ (natToBytes n ++ r).length < (natToBytes n).length)]
    rw [List.take_left, List.drop_left]
    have hc0 : c ≠ 0 := natToBytes_head_ne_zero n hnz c (by rw [hct]; rfl)
    have hhd : (natToBytes n).headD 0 = c := by
      rw [hct]
      rfl
    rw [hhd, if_neg hc0, bytesToNat_natToBytes]
    rw [if_neg (by omega : ¬ n < 128)]

theorem decLen_append (l e : List Nat) (n : Nat) (r : List Nat)
    (h : decLen l = some (n, r)) : decLen (l ++ e) = some (n, r ++ e) := by
  cases l with
  | nil => simp [decLen] at h
  | cons b rest =>
    rw [List.cons_append]
    simp only [decLen] at h ⊢
    by_cases hb : b < 128
    · rw [if_pos hb] at h ⊢
      have h1 : b = n ∧ rest = r := by simpa using h
      rw [h1.1, h1.2]
    · rw [if_neg hb] at h ⊢
      by_cases hm : b - 128 = 0
      · rw [if_pos hm] at h
        simp at h
      · rw [if_neg hm] at h ⊢
        by_cases hlen : rest.length < b - 128
        · rw [if_pos hlen] at h
          simp at h
        · rw [if_neg hlen] at h
          rw [if_neg (by rw [List.length_append]; omega :
            ¬ (rest ++ e).length < b - 128)]
          have htake : (rest ++ e).take (b - 128) = rest.take (b - 128) :=
            List.take_append_of_le_length (by omega)
          have hdrop : (rest ++ e).drop (b - 128) = rest.drop (b - 128) ++ e :=
            List.drop_append_of_le_length (by omega)
          rw [htake, hdrop]
          by_cases h0 : (rest.take (b - 128)).headD 0 = 0
          · rw [if_pos h0] at h
            simp at h
          · rw [if_neg h0] at h ⊢
            by_cases hv : bytesToNat (rest.take (b - 128)) < 128
            · rw [if_pos hv] at h
              simp at h
            · rw [if_neg hv] at h ⊢
              have h1 : bytesToNat (rest.take (b - 128)) = n ∧ rest.drop (b - 128) = r := by
                simpa using h
              rw [h1.1, h1.2]

theorem intContent_ne_nil (v : Nat) : intContent v ≠ [] := by
  unfold intContent
  cases hv : natToBytes v with
  | nil => simp
  | cons b t =>
    by_cases hb : 128 ≤ b <;> simp [hb]

theorem decInt_step (rest : List Nat) (len : Nat) (rest2 : List Nat)
    (h : decLen rest = some (len, rest2)) :
    decInt (2 :: rest) =
      (if len = 0 then none
       else if rest2.length < len then none
       else if 128 ≤ (rest2.take len).headD 0 then none
       else if (rest2.take len).headD 0 = 0 ∧ 1 < len ∧
           (rest2.take len).tail.headD 0 < 128 then none
       else some (bytesToNat (rest2.take len), rest2.drop len)) := by
  simp only [decInt, h, if_pos rfl]
  simp

theorem decInt_encInt (v : Nat) (r : List Nat) : decInt (encInt v ++ r) = some (v, r) := by
  have hlen0 : (intContent v).length ≠ 0 := by
    intro h
    exact intContent_ne_nil v (List.length_eq_zero.mp h)
  rw [encInt]
  simp only [List.cons_append, List.append_assoc]
  rw [decInt_step _ _ _ (decLen_encLen _ _)]
  rw [if_neg hlen0]
  rw [if_neg (by rw [List.length_append]; omega :
    ¬ (intContent v ++ r).length < (intContent v).length)]
  rw [List.take_left, List.drop_left]
  by_cases hv : v = 0
  · subst hv
    have hc : intContent 0 = [0] := by
      unfold intContent
      rw [natToBytes_zero]
    rw [hc]
    norm_num
    rfl
  · obtain ⟨c, t, hct⟩ := List.exists_cons_of_ne_nil (natToBytes_ne_nil v hv)
    have hc0 : c ≠ 0 := natToBytes_head_ne_zero v hv c (by rw [hct]; rfl)
    have hclt : c < 256 := natToBytes_all_lt v c (by rw [hct]; simp)
    by_cases hbig : 128 ≤ c
    · have hc : intContent v = 0 :: c :: t := by
        unfold intContent
        rw [hct]
        simp [hbig]
      rw [hc]
      have h1 : ((0 : Nat) :: c :: t).headD 0 = 0 := rfl
      have h2 : ((0 : Nat) :: c :: t).tail.headD 0 = c := rfl
      rw [h1, h2]
      rw [if_neg (by omega : ¬ 128 ≤ (0 : Nat))]
      rw [if_neg (by
        intro hcontra
        exact absurd hcontra.2.2 (by omega))]
      rw [bytesToNat_cons_zero, ← hct, bytesToNat_natToBytes]
    · have hc : intContent v = c :: t := by
        unfold intContent
        rw [hct]
        simp [hbig]
      rw [hc]
      have h1 : (c :: t).headD 0 = c := rfl
      rw [h1]
      rw [if_neg (by omega : ¬ 128 ≤ c)]
      rw [if_neg (by
        intro hcontra
        exact absurd hcontra.1 hc0)]
      rw [← hct, bytesToNat_natToBytes]

theorem encInt_ne_nil (v : Nat) : encInt v ≠ [] := by
  unfold encInt
  simp

theorem encIntList_append (a b : List Nat) :
    encIntList (a ++ b) = encIntList a ++ encIntList b := by
  induction a with
  | nil => rfl
  | cons v vs ih =>
    simp only [List.cons_append, encIntList, List.append_eq, ih, List.append_assoc]

theorem encIntList_ne_nil (v : Nat) (vs : List Nat) : encIntList (v :: vs) ≠ [] := by
  simp only [encIntList]
  intro h
  rcases List.append_eq_nil.mp h with ⟨h1, _⟩
  exact encInt_ne_nil v h1

theorem decInts_step (k v : Nat) (l : List Nat) :
    decInts (k + 1) (encInt v ++ l) =
      match decInts k l with
      | none => none
      | some (vs, l'') => some (v :: vs, l'') := by
  simp only [decInts, decInt_encInt]

theorem decInts_encIntList (vs : List Nat) (r : List Nat) :
    decInts vs.length (encIntList vs ++ r) = some (vs, r) := by
  induction vs generalizing r with
  | nil => rfl
  | cons v tl ih =>
    show decInts (tl.length + 1) _ = _
    simp only [encIntList, List.append_assoc, decInts_step, ih]

theorem decInts_too_few (vs : List Nat) (j : Nat) :
    decInts (vs.length + j + 1) (encIntList vs) = none := by
  induction vs with
  | nil =>
    show decInts (j + 1) [] = none
    simp [decInts, decInt]
  | cons v tl ih =>
    have h1 : (v :: tl).length + j + 1 = (tl.length + j + 1) + 1 := by
      simp [List.length_cons]
      omega
    rw [h1]
    show decInts _ (encInt v ++ encIntList tl) = none
    rw [decInts_step, ih]

theorem decSeqInts_step (k : Nat) (rest : List Nat) (len : Nat) (content : List Nat)
    (h : decLen rest = some (len, content)) :
    decSeqInts k (48 :: rest) =
      (if content.length = len then
        match decInts k content with
        | some (vs, []) => some vs
        | _ => none
      else none) := by
  simp only [decSeqInts, h, if_pos rfl]
  simp

theorem decSeqInts_encSeqInts (k : Nat) (vs : List Nat) (h : vs.length = k) :
    decSeqInts k (encSeqInts vs) = some vs := by
  subst h
  unfold encSeqInts seqRaw
  rw [decSeqInts_step _ _ _ _ (decLen_encLen _ _)]
  rw [if_pos rfl]
  have hdec := decInts_encIntList vs []
  rw [List.append_nil] at hdec
  rw [hdec]

theorem decSeqInts_append (k : Nat) (raw extra : List Nat)
    (h : decSeqInts k raw ≠ none) (he : extra ≠ []) :
    decSeqInts k (raw ++ extra) = none := by
  cases raw with
  | nil => simp [decSeqInts] at h
  | cons t rest =>
    by_cases ht : t = 48
    · subst ht
      cases hdl : decLen rest with
      | none =>
        refine absurd ?_ h
        simp only [decSeqInts, hdl, if_pos rfl]
        simp
      | some p =>
        obtain ⟨len, content⟩ := p
        have hcl : content.length = len := by
          by_contra hne
          exact h (by rw [decSeqInts_step k rest len content hdl, if_neg hne])
        rw [List.cons_append,
          decSeqInts_step k (rest ++ extra) len (content ++ extra)
            (decLen_append rest extra len content hdl)]
        refine if_neg ?_
        intro hx
        rw [List.length_append, hcl] at hx
        have hz : extra.length = 0 := by omega
        exact he (List.length_eq_zero.mp hz)
    · refine absurd ?_ h
      simp only [decSeqInts, if_neg ht]

theorem decSeqInts_wrong_count (k : Nat) (vs : List Nat) (h : vs.length ≠ k) :
    decSeqInts k (encSeqInts vs) = none := by
  unfold encSeqInts seqRaw
  rw [decSeqInts_step _ _ _ _ (decLen_encLen _ _), if_pos rfl]
  rcases Nat.lt_or_ge vs.length k with hlt | hge
  · have hk : k = vs.length + (k - vs.length - 1) + 1 := by omega
    rw [hk, decInts_too_few]
  · have hgt : k < vs.length := by omega
    have hlen : (vs.take k).length = k := by
      rw [List.length_take]
      omega
    have henc : encIntList vs = encIntList (vs.take k) ++ encIntList (vs.drop k) := by
      conv_lhs => rw [← List.take_append_drop k vs]
      exact encIntList_append _ _
    rw [henc]
    have hd := decInts_encIntList (vs.take k) (encIntList (vs.drop k))
    rw [hlen] at hd
    rw [hd]
    have hrem : vs.drop k ≠ [] := by
      intro hnil
      rw [List.drop_eq_nil_iff] at hnil
      omega
    obtain ⟨c, cs, hct⟩ := List.exists_cons_of_ne_nil hrem
    rw [hct]
    rfl

theorem decInt_neg (b : Nat) (tail rest : List Nat) (hb : 128 ≤ b) :
    decInt ((2 :: (encLen (b :: tail).length ++ (b :: tail))) ++ rest) = none := by
  rw [List.cons_append, List.append_assoc]
  rw [decInt_step _ _ _ (decLen_encLen _ _)]
  rw [if_neg (by simp : ¬ ((b :: tail).length = 0))]
  rw [if_neg (by rw [List.length_append]; omega :
    ¬ ((b :: tail) ++ rest).length < (b :: tail).length)]
  rw [List.take_left]
  have h1 : ((b :: tail)).headD 0 = b := rfl
  rw [h1, if_pos hb]

theorem decInts_neg_after (pre : List Nat) (j b : Nat) (tail rest : List Nat)
    (hb : 128 ≤ b) :
    decInts (pre.length + j + 1)
      (encIntList pre ++ ((2 :: (encLen (b :: tail).length ++ (b :: tail))) ++ rest))
      = none := by
  induction pre with
  | nil =>
    simp only [List.length_nil, Nat.zero_add, encIntList, List.nil_append]
    simp only [decInts, decInt_neg b tail rest hb]
  | cons v tl ih =>
    have h1 : (v :: tl).length + j + 1 = (tl.length + j + 1) + 1 := by
      simp [List.length_cons]
      omega
    rw [h1]
    simp only [encIntList, List.append_assoc]
    rw [decInts_step, ih]

theorem decSeqInts_neg_any (k : Nat) (pre : List Nat) (b : Nat) (tail rest : List Nat)
    (hb : 128 ≤ b) (hpos : pre.length < k) :
    decSeqInts k
      (seqRaw (encIntList pre
        ++ ((2 :: (encLen (b :: tail).length ++ (b :: tail))) ++ rest))) = none := by
  unfold seqRaw
  rw [decSeqInts_step _ _ _ _ (decLen_encLen _ _), if_pos rfl]
  have hk : k = pre.length + (k - pre.length - 1) + 1 := by omega
  rw [hk, decInts_neg_after pre (k - pre.length - 1) b tail rest hb]

theorem d2i_i2d_RSAPrivateKey (v : RsaVals) :
    d2i_RSAPrivateKey (i2d_RSAPrivateKey v) = some v := by
  unfold d2i_RSAPrivateKey i2d_RSAPrivateKey
  rw [decSeqInts_encSeqInts 9 [0, v.n, v.e, v.d, v.p, v.q, v.dp, v.dq, v.qi] rfl]
  rfl

theorem d2i_i2d_RSAPublicKey (n e : Nat) :
    d2i_RSAPublicKey (i2d_RSAPublicKey n e) = some (n, e) := by
  unfold d2i_RSAPublicKey i2d_RSAPublicKey
  rw [decSeqInts_encSeqInts 2 [n, e] rfl]

/-! Helper lemmas for the completion engine and the validators. -/

theorem bn_mod_some (a n r : Nat) (h : bn_mod a n = some r) : n ≠ 0 ∧ r = a % n := by
  unfold bn_mod at h
  by_cases hn : n = 0
  · rw [if_pos hn] at h
    simp at h
  · rw [if_neg hn] at h
    exact ⟨hn, (Option.some.inj h).symm⟩

theorem computeVals_spec (n0 e0 d0 p0 q0 dp0 dq0 qi0 : Nat) (v : RsaVals)
    (h : computeVals n0 e0 d0 p0 q0 dp0 dq0 qi0 = some v) :
    v.p = p0 ∧ v.q = q0
    ∧ (n0 = 0 → v.n = p0 * q0) ∧ (n0 ≠ 0 → v.n = n0)
    ∧ (e0 = 0 → bn_mod_inverse d0 ((p0 - 1) * (q0 - 1)) = some v.e)
    ∧ (e0 ≠ 0 → v.e = e0)
    ∧ (d0 = 0 → bn_mod_inverse v.e ((p0 - 1) * (q0 - 1)) = some v.d)
    ∧ (d0 ≠ 0 → v.d = d0)
    ∧ ((dp0 = 0 ∨ dq0 = 0) → v.dp = v.d % (p0 - 1) ∧ v.dq = v.d % (q0 - 1))
    ∧ (dp0 ≠ 0 ∧ dq0 ≠ 0 → v.dp = dp0 ∧ v.dq = dq0)
    ∧ (qi0 = 0 → bn_mod_inverse q0 p0 = some v.qi)
    ∧ (qi0 ≠ 0 → v.qi = qi0) := by
  unfold computeVals at h
  rcases Option.bind_eq_some.mp h with ⟨e1, hE, h⟩
  rcases Option.bind_eq_some.mp h with ⟨d1, hD, h⟩
  rcases Option.bind_eq_some.mp h with ⟨dpq, hDP, h⟩
  rcases Option.bind_eq_some.mp h with ⟨qi1, hQ, h⟩
  have hv := Option.some.inj h
  subst hv
  refine ⟨rfl, rfl, ?_, ?_, ?_, ?_, ?_, ?_, ?_, ?_, ?_, ?_⟩
  · intro h0
    simp [if_pos h0]
  · intro h0
    simp [if_neg h0]
  · intro h0
    rw [if_pos h0] at hE
    exact hE
  · intro h0
    rw [if_neg h0] at hE
    exact (Option.some.inj hE).symm ▸ rfl
  · intro h0
    rw [if_pos h0] at hD
    have he1 : e1 = RsaVals.e ⟨if n0 = 0 then p0 * q0 else n0, e1, d1, p0, q0, dpq.1, dpq.2, qi1⟩ := rfl
    rw [← he1]
    exact hD
  · intro h0
    rw [if_neg h0] at hD
    exact (Option.some.inj hD).symm ▸ rfl
  · intro h0
    rw [if_pos h0] at hDP
    rcases Option.bind_eq_some.mp hDP with ⟨a, hA, hB⟩
    rcases Option.map_eq_some'.mp hB with ⟨b, hb, hab⟩
    obtain ⟨-, ha⟩ := bn_mod_some _ _ _ hA
    obtain ⟨-, hbv⟩ := bn_mod_some _ _ _ hb
    rw [← hab]
    exact ⟨by simpa using ha, by simpa using hbv⟩
  · intro h0
    rw [if_neg (by
      intro hor
      rcases hor with h1 | h1
      · exact h0.1 h1
      · exact h0.2 h1)] at hDP
    have := Option.some.inj hDP
    rw [← this]
    exact ⟨rfl, rfl⟩
  · intro h0
    rw [if_pos h0] at hQ
    exact hQ
  · intro h0
    rw [if_neg h0] at hQ
    exact (Option.some.inj hQ).symm ▸ rfl

theorem privkey_compute_split (k : RsaKey) (out : RsaKey)
    (h : bcrypto_rsa_privkey_compute k = some (some out)) :
    bcrypto_rsa_sane_compute k = true ∧ bcrypto_rsa_needs_compute k = true ∧
    ∃ v : RsaVals,
      computeVals (bufToNat k.nd) (bufToNat k.ed) (bufToNat k.dd) (bufToNat k.pd)
        (bufToNat k.qd) (bufToNat k.dpd) (bufToNat k.dqd) (bufToNat k.qid) = some v ∧
      out = privFromVals v := by
  unfold bcrypto_rsa_privkey_compute at h
  by_cases hs : bcrypto_rsa_sane_compute k = false
  · rw [if_pos hs] at h
    simp at h
  · rw [if_neg hs] at h
    by_cases hn : bcrypto_rsa_needs_compute k = false
    · rw [if_pos hn] at h
      simp at h
    · rw [if_neg hn] at h
      cases hcv : computeVals (bufToNat k.nd) (bufToNat k.ed) (bufToNat k.dd)
          (bufToNat k.pd) (bufToNat k.qd) (bufToNat k.dpd) (bufToNat k.dqd)
          (bufToNat k.qid) with
      | none =>
        rw [hcv] at h
        simp at h
      | some v =>
        rw [hcv] at h
        have hout : privFromVals v = out := by
          have h1 := Option.some.inj h
          exact Option.some.inj h1
        exact ⟨by simpa using hs, by simpa using hn, v, rfl, hout.symm⟩

theorem count_bits_some_nil : bcrypto_count_bits (some []) = 0 := rfl

theorem count_bits_none : bcrypto_count_bits none = 0 := rfl

theorem count_bits_pos_ne_nil (l : List Nat) (h : bcrypto_count_bits (some l) ≠ 0) :
    l ≠ [] := by
  intro hnil
  subst hnil
  exact h count_bits_some_nil

theorem bytesToNat_mod_two (l : List Nat) (h : l ≠ []) :
    bytesToNat l % 2 = (l.getLast?.getD 0) % 2 := by
  rcases List.eq_nil_or_concat l with hnil | ⟨l', b, hcat⟩
  · exact absurd hnil h
  · subst hcat
    rw [List.concat_eq_append, bytesToNat_concat, List.getLast?_concat]
    simp only [Option.getD_some]
    omega

theorem dropWhile_self (p : Nat → Bool) (l : List Nat) :
    List.dropWhile p (List.dropWhile p l) = List.dropWhile p l := by
  induction l with
  | nil => rfl
  | cons b t ih =>
    by_cases hb : p b
    · simp [List.dropWhile_cons, hb, ih]
    · simp [List.dropWhile_cons, hb]

theorem count_bits_ne_zero (o : Option (List Nat)) (h : bcrypto_count_bits o ≠ 0) :
    ∃ l, o = some l ∧ l ≠ [] := by
  cases o with
  | none => exact absurd count_bits_none h
  | some l =>
    refine ⟨l, rfl, ?_⟩
    intro hnil
    subst hnil
    exact h count_bits_some_nil

theorem buf_parity (o : Option (List Nat)) (h : bcrypto_count_bits o ≠ 0) :
    bufToNat o % 2 = lastByte o % 2 := by
  obtain ⟨l, rfl, hl⟩ := count_bits_ne_zero o h
  exact bytesToNat_mod_two l hl

/-- C3: `is_valid_private` holds iff `is_valid_public` does and additionally
`bitlen d ∈ (0, bitlen n]`, `bitlen p + bitlen q = bitlen n` exactly,
`bitlen dp ∈ (0, bitlen p]`, `bitlen dq ∈ (0, bitlen q]`, and
`bitlen qInv ∈ (0, bitlen p]`; being a total boolean function it never
raises. -/
theorem sane_privkey_iff (k : RsaKey) :
    bcrypto_rsa_sane_privkey k = true ↔
      (bcrypto_rsa_sane_pubkey k = true
       ∧ 0 < bcrypto_count_bits k.dd
       ∧ bcrypto_count_bits k.dd ≤ bcrypto_count_bits k.nd
       ∧ bcrypto_count_bits k.pd + bcrypto_count_bits k.qd = bcrypto_count_bits k.nd
       ∧ 0 < bcrypto_count_bits k.dpd
       ∧ bcrypto_count_bits k.dpd ≤ bcrypto_count_bits k.pd
       ∧ 0 < bcrypto_count_bits k.dqd
       ∧ bcrypto_count_bits k.dqd ≤ bcrypto_count_bits k.qd
       ∧ 0 < bcrypto_count_bits k.qid
       ∧ bcrypto_count_bits k.qid ≤ bcrypto_count_bits k.pd) := by
  simp only [bcrypto_rsa_sane_privkey]
  split_ifs with h1 h2 h3 h4 h5 h6 <;> constructor <;> intro h <;> simp_all <;> omega

/-- C4: `is_valid_public` holds iff `bitlen n ∈ [512, 16384]`,
`bitlen e ∈ [2, 33]`, and the low bit of `e`'s value is set; consequently
it is false for `bitlen n = 511` or `16385` and for an even exponent; the
bit length of a buffer is 0 when the buffer is absent or all-zero, and is
otherwise computed after stripping leading zero octets. -/
theorem sane_pubkey_spec (k : RsaKey) :
    (bcrypto_rsa_sane_pubkey k = true ↔
      (512 ≤ bcrypto_count_bits k.nd ∧ bcrypto_count_bits k.nd ≤ 16384
       ∧ 2 ≤ bcrypto_count_bits k.ed ∧ bcrypto_count_bits k.ed ≤ 33
       ∧ bufToNat k.ed % 2 = 1))
    ∧ (bcrypto_count_bits k.nd = 511 → bcrypto_rsa_sane_pubkey k = false)
    ∧ (bcrypto_count_bits k.nd = 16385 → bcrypto_rsa_sane_pubkey k = false)
    ∧ (bufToNat k.ed % 2 = 0 → bcrypto_rsa_sane_pubkey k = false)
    ∧ bcrypto_count_bits none = 0
    ∧ (∀ l : List Nat, (∀ b ∈ l, b = 0) → bcrypto_count_bits (some l) = 0)
    ∧ (∀ l : List Nat,
        bcrypto_count_bits (some l) =
          bcrypto_count_bits (some (l.dropWhile (fun b => b == 0)))) := by
  have hiff : bcrypto_rsa_sane_pubkey k = true ↔
      (512 ≤ bcrypto_count_bits k.nd ∧ bcrypto_count_bits k.nd ≤ 16384
       ∧ 2 ≤ bcrypto_count_bits k.ed ∧ bcrypto_count_bits k.ed ≤ 33
       ∧ bufToNat k.ed % 2 = 1) := by
    simp only [bcrypto_rsa_sane_pubkey]
    split_ifs with h1 h2 h3
    · constructor
      · intro h
        simp at h
      · intro h
        omega
    · constructor
      · intro h
        simp at h
      · intro h
        omega
    · constructor
      · intro h
        simp at h
      · intro h
        have hpar := buf_parity k.ed (by omega)
        omega
    · constructor
      · intro _
        have hpar := buf_parity k.ed (by omega)
        refine ⟨by omega, by omega, by omega, by omega, by omega⟩
      · intro _
        rfl
  refine ⟨hiff, ?_, ?_, ?_, count_bits_none, ?_, ?_⟩
  · intro h511
    cases hsb : bcrypto_rsa_sane_pubkey k with
    | false => rfl
    | true =>
      have := hiff.mp hsb
      omega
  · intro h16385
    cases hsb : bcrypto_rsa_sane_pubkey k with
    | false => rfl
    | true =>
      have := hiff.mp hsb
      omega
  · intro heven
    cases hsb : bcrypto_rsa_sane_pubkey k with
    | false => rfl
    | true =>
      have := hiff.mp hsb
      omega
  · intro l hz
    have hdrop : l.dropWhile (fun b => b == 0) = [] :=
      List.dropWhile_eq_nil_iff.mpr (fun x hx => by simp [hz x hx])
    simp only [bcrypto_count_bits, hdrop]
  · intro l
    simp only [bcrypto_count_bits, dropWhile_self]

/-- C5: `verify` returns the boolean `false` - one single failure value,
never a distinguishable error - whenever the algorithm name is outside the
supported set (`bcrypto_rsa_type` yields `-1` exactly then), the public
key fails `is_valid_public`, the signature is absent or its length lies
outside [1, 3072], or the underlying `RSA_verify` primitive rejects the
signature for the message. -/
theorem verify_false_cases (V : Int → List Nat → List Nat → RsaKey → Bool)
    (alg : Option String) (msg sig : Option (List Nat)) (pub : RsaKey) :
    (bcrypto_rsa_type alg = -1 ↔ ∀ a, alg = some a → a ∉ supportedAlgs)
    ∧ (bcrypto_rsa_type alg = -1 → bcrypto_rsa_verify V alg msg sig pub = false)
    ∧ (bcrypto_rsa_sane_pubkey pub = false → bcrypto_rsa_verify V alg msg sig pub = false)
    ∧ (sig = none → bcrypto_rsa_verify V alg msg sig pub = false)
    ∧ (∀ s, sig = some s → (s.length < 1 ∨ 3072 < s.length) →
        bcrypto_rsa_verify V alg msg sig pub = false)
    ∧ ((∀ m s, msg = some m → sig = some s →
        V (bcrypto_rsa_type alg) m s pub = false) →
        bcrypto_rsa_verify V alg msg sig pub = false) := by
  refine ⟨?_, ?_, ?_, ?_, ?_, ?_⟩
  · cases alg with
    | none => simp [bcrypto_rsa_type]
    | some a =>
      simp only [bcrypto_rsa_type, supportedAlgs]
      constructor
      · intro h b hb
        injection hb with hb'
        subst hb'
        intro hmem
        split_ifs at h
        all_goals simp_all
      · intro h
        have ha := h a rfl
        have g1 : a ≠ "md5" := fun hx => ha (by rw [hx]; decide)
        have g2 : a ≠ "ripemd160" := fun hx => ha (by rw [hx]; decide)
        have g3 : a ≠ "sha1" := fun hx => ha (by rw [hx]; decide)
        have g4 : a ≠ "sha224" := fun hx => ha (by rw [hx]; decide)
        have g5 : a ≠ "sha256" := fun hx => ha (by rw [hx]; decide)
        have g6 : a ≠ "sha384" := fun hx => ha (by rw [hx]; decide)
        have g7 : a ≠ "sha512" := fun hx => ha (by rw [hx]; decide)
        rw [if_neg g1, if_neg g2, if_neg g3, if_neg g4, if_neg g5, if_neg g6, if_neg g7]
  · intro h
    unfold bcrypto_rsa_verify
    rw [if_pos h]
  · intro h
    unfold bcrypto_rsa_verify
    split_ifs with h1 h2 h3 h4 <;> try rfl
    simp [h] at h4
  · intro h
    subst h
    unfold bcrypto_rsa_verify
    split_ifs with h1 h2 h3 h4 <;> try rfl
    simp [bad_sig] at h3
  · intro s hs hlen
    subst hs
    unfold bcrypto_rsa_verify
    split_ifs with h1 h2 h3 h4 <;> try rfl
    have h3' : ¬ (s.length < 1 ∨ s.length > 3072) := by
      intro hx
      exact h3 (by unfold bad_sig; exact decide_eq_true hx)
    exfalso
    omega
  · intro hV
    unfold bcrypto_rsa_verify
    split_ifs with h1 h2 h3 h4 <;> try rfl
    cases msg with
    | none => simp [bad_msg] at h2
    | some m =>
      cases sig with
      | none => simp [bad_sig] at h3
      | some s =>
        simp only [Option.getD_some]
        exact hV m s rfl rfl

/-- C10: `verify` applies to the message the same guard
`msg == NULL || msg_len < 1 || msg_len > 64` that `sign` applies, although
only the signature bound is spec-documented: an absent, empty, or
over-64-byte message makes `verify` return `false` and `sign` fail, for
every algorithm, signature, key, and primitive. -/
theorem verify_sign_message_guard (V : Int → List Nat → List Nat → RsaKey → Bool)
    (S : Int → List Nat → RsaKey → Option (List Nat))
    (alg : Option String) (msg sig : Option (List Nat)) (pub priv : RsaKey)
    (h : msg = none ∨ ∀ m, msg = some m → (m.length < 1 ∨ 64 < m.length)) :
    bcrypto_rsa_verify V alg msg sig pub = false
    ∧ bcrypto_rsa_sign S alg msg priv = none := by
  have hbad : bad_msg msg = true := by
    cases msg with
    | none => rfl
    | some m =>
      rcases h with h | h
      · simp at h
      · have hm := h m rfl
        unfold bad_msg
        exact decide_eq_true (by omega)
  constructor
  · unfold bcrypto_rsa_verify
    split_ifs with h1 <;> rfl
  · unfold bcrypto_rsa_sign
    split_ifs with h1 <;> rfl

/-- C8: a key needs completion iff one of the six fields `n`, `e`, `d`,
`dp`, `dq`, `qInv` has bit length 0 (changing `p` and `q` never changes
the outcome); and on a key passing `is_valid_for_completion` in which
none of the six is absent, `bcrypto_rsa_privkey_compute` succeeds with
`*key = NULL` (the `(false, none)` no-op result, modelled `some none`). -/
theorem needs_compute_spec (k : RsaKey) :
    (bcrypto_rsa_needs_compute k = true ↔
      (bcrypto_count_bits k.nd = 0 ∨ bcrypto_count_bits k.ed = 0
       ∨ bcrypto_count_bits k.dd = 0 ∨ bcrypto_count_bits k.dpd = 0
       ∨ bcrypto_count_bits k.dqd = 0 ∨ bcrypto_count_bits k.qid = 0))
    ∧ (∀ p' q', bcrypto_rsa_needs_compute { k with pd := p', qd := q' } =
        bcrypto_rsa_needs_compute k)
    ∧ (bcrypto_rsa_sane_compute k = true → bcrypto_rsa_needs_compute k = false →
        bcrypto_rsa_privkey_compute k = some none) := by
  refine ⟨?_, ?_, ?_⟩
  · simp [bcrypto_rsa_needs_compute]
  · intro p' q'
    rfl
  · intro hs hn
    unfold bcrypto_rsa_privkey_compute
    rw [if_neg (by simp [hs]), if_pos hn]

/-! Concrete key material used by counterexamples and witnesses. -/

/-- A partial key accepted by `sane_compute`: `e = 3`, `d = 3`, `p = 3`,
`q = 5`, `dq = 1`, `qInv = 2` present; `n` and `dp` absent. -/
def K1 : RsaKey :=
  ⟨none, some [3], some [3], some [3], some [5], none, some [1], some [2]⟩

/-- The key `bcrypto_rsa_privkey_compute` builds from `K1`:
`n = 15`, `dp = 3 mod 2 = 1`, and `dq` recomputed to `3 mod 4 = 3`
although the caller supplied `dq = 1`. -/
def K1out : RsaKey :=
  ⟨some [15], some [3], some [3], some [3], some [5], some [1], some [3], some [2]⟩

/-- A complete, structurally valid 512-bit private key in minimal form:
`n = 2^511`, `e = 3`, `d = dp = dq = qInv = 1`, `p = q = 2^255`. -/
def KM : RsaKey :=
  ⟨some (128 :: List.replicate 63 0), some [3], some [1],
   some (128 :: List.replicate 31 0), some (128 :: List.replicate 31 0),
   some [1], some [1], some [1]⟩

/-- `KM` with a redundant leading zero octet on the `d` buffer; still
satisfies every bit-length invariant of section 3. -/
def K6 : RsaKey :=
  { KM with dd := some [0, 1] }

/-- A public key with a 511-bit modulus. -/
def KP511 : RsaKey :=
  ⟨some (64 :: List.replicate 63 0), some [3], none, none, none, none, none, none⟩

/-- Small key values whose DER encoding decodes fine although the decoded
key violates every modulus bound. -/
def tinyPrivVals : RsaVals := ⟨15, 3, 3, 3, 5, 1, 3, 2⟩

def tinyPrivKey : RsaKey := privFromVals tinyPrivVals

def tinyPubKey : RsaKey := pubFromVals 15 4

/-- C1 (amended): on a key accepted by `is_valid_for_completion` that
needs completion, when `complete` succeeds it derives each absent field
by the RSA relations - `n = p * q`, `e = d⁻¹ mod (p-1)(q-1)`,
`d = e⁻¹ mod (p-1)(q-1)`, `qInv = q⁻¹ mod p` - and those four are
computed only when absent; `dp` and `dq` however are derived as a pair:
when either is absent both are recomputed as `d mod (p-1)` and
`d mod (q-1)`, so a present `dp` or `dq` with an absent sibling is
overwritten; fields not recomputed keep their caller-supplied values. -/
theorem privkey_compute_derivation (k out : RsaKey)
    (h : bcrypto_rsa_privkey_compute k = some (some out)) :
    bufToNat out.pd = bufToNat k.pd
    ∧ bufToNat out.qd = bufToNat k.qd
    ∧ (bufToNat k.nd = 0 → bufToNat out.nd = bufToNat k.pd * bufToNat k.qd)
    ∧ (bufToNat k.nd ≠ 0 → bufToNat out.nd = bufToNat k.nd)
    ∧ (bufToNat k.ed = 0 →
        bn_mod_inverse (bufToNat k.dd) ((bufToNat k.pd - 1) * (bufToNat k.qd - 1))
          = some (bufToNat out.ed))
    ∧ (bufToNat k.ed ≠ 0 → bufToNat out.ed = bufToNat k.ed)
    ∧ (bufToNat k.dd = 0 →
        bn_mod_inverse (bufToNat out.ed) ((bufToNat k.pd - 1) * (bufToNat k.qd - 1))
          = some (bufToNat out.dd))
    ∧ (bufToNat k.dd ≠ 0 → bufToNat out.dd = bufToNat k.dd)
    ∧ ((bufToNat k.dpd = 0 ∨ bufToNat k.dqd = 0) →
        bufToNat out.dpd = bufToNat out.dd % (bufToNat k.pd - 1)
        ∧ bufToNat out.dqd = bufToNat out.dd % (bufToNat k.qd - 1))
    ∧ (bufToNat k.dpd ≠ 0 ∧ bufToNat k.dqd ≠ 0 →
        bufToNat out.dpd = bufToNat k.dpd ∧ bufToNat out.dqd = bufToNat k.dqd)
    ∧ (bufToNat k.qid = 0 →
        bn_mod_inverse (bufToNat k.qd) (bufToNat k.pd) = some (bufToNat out.qid))
    ∧ (bufToNat k.qid ≠ 0 → bufToNat out.qid = bufToNat k.qid) := by
  obtain ⟨hs, hn, v, hcv, rfl⟩ := privkey_compute_split k out h
  obtain ⟨hp, hq, hn0, hn1, he0, he1, hd0, hd1, hdp0, hdp1, hqi0, hqi1⟩ :=
    computeVals_spec _ _ _ _ _ _ _ _ v hcv
  simp only [privFromVals, bufToNat_natToBytes]
  exact ⟨hp, hq, hn0, hn1, he0, he1, hd0, hd1, hdp0, hdp1, hqi0, hqi1⟩

/-- C1 counterexample: `K1` is accepted and needs completion, its `dq`
field is present with value 1, yet the computed key carries `dq = 3`:
a present field does not survive with its caller-supplied value. -/
theorem privkey_compute_overwrites_dq :
    bcrypto_rsa_sane_compute K1 = true
    ∧ bcrypto_rsa_needs_compute K1 = true
    ∧ bcrypto_count_bits K1.dqd ≠ 0
    ∧ bufToNat K1.dqd = 1
    ∧ bcrypto_rsa_privkey_compute K1 = some (some K1out)
    ∧ bufToNat K1out.dqd = 3 := by decide

/-- C1 witness. -/
theorem privkey_compute_derivation_witness :
    bufToNat K1out.dpd = bufToNat K1out.dd % (bufToNat K1.pd - 1)
    ∧ bufToNat K1out.dqd = bufToNat K1out.dd % (bufToNat K1.qd - 1) := by
  have h := privkey_compute_derivation K1 K1out (by decide)
  exact h.2.2.2.2.2.2.2.2.1 (by decide)

/-- C2 (amended): on success with an update, `complete` returns
`(true, completed_key)` where `completed_key` is the full completed key -
all eight fields present, combining the caller-supplied values (`p` and
`q` in particular are always caller-supplied and are copied through) with
the freshly derived fields - not a delta record holding only derived
fields. -/
theorem privkey_compute_full_key (k out : RsaKey)
    (h : bcrypto_rsa_privkey_compute k = some (some out)) :
    out.nd.isSome ∧ out.ed.isSome ∧ out.dd.isSome ∧ out.pd.isSome
    ∧ out.qd.isSome ∧ out.dpd.isSome ∧ out.dqd.isSome ∧ out.qid.isSome
    ∧ bufToNat out.pd = bufToNat k.pd ∧ bufToNat out.qd = bufToNat k.qd := by
  obtain ⟨hs, hn, v, hcv, rfl⟩ := privkey_compute_split k out h
  obtain ⟨hp, hq, _⟩ := computeVals_spec _ _ _ _ _ _ _ _ v hcv
  simp [privFromVals, bufToNat_natToBytes, hp, hq]

/-- C2 counterexample: the key computed from `K1` carries the
caller-supplied values of `p`, `q` and `e` (here `p` with value 3), so it
is not a record holding only freshly derived fields. -/
theorem privkey_compute_not_delta :
    bcrypto_rsa_privkey_compute K1 = some (some K1out)
    ∧ bcrypto_count_bits K1.pd ≠ 0
    ∧ bufToNat K1.pd = 3
    ∧ K1out.pd = some [3]
    ∧ bufToNat K1out.pd = bufToNat K1.pd := by decide

/-- C2 witness. -/
theorem privkey_compute_full_key_witness :
    K1out.nd.isSome = true := by
  have h := privkey_compute_full_key K1 K1out (by decide)
  exact h.1

/-- A buffer in minimal form: present, non-empty, no leading zero octet,
all octets below 256 (the last is automatic for genuine `uint8_t`
buffers). -/
def minBuf : Option (List Nat) → Bool
  | none => false
  | some [] => false
  | some (b :: t) => (b != 0) && (b :: t).all (fun x => decide (x < 256))

/-- All eight buffers of a key in minimal form. -/
def keyMinimal (k : RsaKey) : Bool :=
  minBuf k.nd && (minBuf k.ed && (minBuf k.dd && (minBuf k.pd &&
    (minBuf k.qd && (minBuf k.dpd && (minBuf k.dqd && minBuf k.qid))))))

theorem minBuf_roundtrip (o : Option (List Nat)) (h : minBuf o = true) :
    some (natToBytes (bufToNat o)) = o := by
  cases o with
  | none => simp [minBuf] at h
  | some l =>
    cases l with
    | nil => simp [minBuf] at h
    | cons b t =>
      simp only [minBuf, Bool.and_eq_true, bne_iff_ne, ne_eq, List.all_eq_true,
        decide_eq_true_eq] at h
      show some (natToBytes (bytesToNat (b :: t))) = some (b :: t)
      rw [natToBytes_bytesToNat (b :: t) ?hh h.2]
      case hh =>
        intro c hc
        have hbc : b = c := by simpa using hc
        rw [← hbc]
        exact h.1

/-- C6 (amended): for every key satisfying the section-3 private-key
invariants whose buffers are in minimal big-endian form (non-empty, no
leading zero octet), `decode (encode k) = k`; for a section-3-valid key
holding a leading-zero octet the round trip instead returns the canonical
(value-equal) form, so byte-level `decode (encode k) = k` does not hold
unconditionally (see the counterexample). -/
theorem privkey_export_import_roundtrip (k : RsaKey)
    (h1 : bcrypto_rsa_sane_privkey k = true) (h2 : keyMinimal k = true) :
    (bcrypto_rsa_privkey_export k).bind bcrypto_rsa_privkey_import = some k := by
  unfold bcrypto_rsa_privkey_export
  rw [if_neg (by simp [h1])]
  show bcrypto_rsa_privkey_import (i2d_RSAPrivateKey (toVals k)) = some k
  unfold bcrypto_rsa_privkey_import
  rw [d2i_i2d_RSAPrivateKey]
  show some (privFromVals (toVals k)) = some k
  unfold keyMinimal at h2
  simp only [Bool.and_eq_true] at h2
  obtain ⟨m1, m2, m3, m4, m5, m6, m7, m8⟩ := h2
  have e1 := minBuf_roundtrip k.nd m1
  have e2 := minBuf_roundtrip k.ed m2
  have e3 := minBuf_roundtrip k.dd m3
  have e4 := minBuf_roundtrip k.pd m4
  have e5 := minBuf_roundtrip k.qd m5
  have e6 := minBuf_roundtrip k.dpd m6
  have e7 := minBuf_roundtrip k.dqd m7
  have e8 := minBuf_roundtrip k.qid m8
  show some (⟨some (natToBytes (bufToNat k.nd)), some (natToBytes (bufToNat k.ed)),
    some (natToBytes (bufToNat k.dd)), some (natToBytes (bufToNat k.pd)),
    some (natToBytes (bufToNat k.qd)), some (natToBytes (bufToNat k.dpd)),
    some (natToBytes (bufToNat k.dqd)), some (natToBytes (bufToNat k.qid))⟩ : RsaKey)
    = some k
  rw [e1, e2, e3, e4, e5, e6, e7, e8]

/-- C6 counterexample: `K6` satisfies every section-3 private-key
invariant, yet the decode of its encode is the canonical key `KM`, not
`K6` - the leading zero octet of `d` is not recovered. -/
theorem privkey_roundtrip_fails_nonminimal :
    bcrypto_rsa_sane_privkey K6 = true
    ∧ (bcrypto_rsa_privkey_export K6).bind bcrypto_rsa_privkey_import = some KM
    ∧ KM ≠ K6 := by decide

/-- C6 witness. -/
theorem privkey_export_import_roundtrip_witness :
    (bcrypto_rsa_privkey_export KM).bind bcrypto_rsa_privkey_import = some KM :=
  privkey_export_import_roundtrip KM (by decide) (by decide)

theorem privkey_import_of_decSeq_none (raw : List Nat) (h : decSeqInts 9 raw = none) :
    bcrypto_rsa_privkey_import raw = none := by
  unfold bcrypto_rsa_privkey_import d2i_RSAPrivateKey
  rw [h]

theorem pubkey_import_of_decSeq_none (raw : List Nat) (h : decSeqInts 2 raw = none) :
    bcrypto_rsa_pubkey_import raw = none := by
  unfold bcrypto_rsa_pubkey_import d2i_RSAPublicKey
  rw [h]

theorem privkey_import_decSeq_ne_none (raw : List Nat)
    (h : bcrypto_rsa_privkey_import raw ≠ none) : decSeqInts 9 raw ≠ none :=
  fun hn => h (privkey_import_of_decSeq_none raw hn)

theorem pubkey_import_decSeq_ne_none (raw : List Nat)
    (h : bcrypto_rsa_pubkey_import raw ≠ none) : decSeqInts 2 raw ≠ none :=
  fun hn => h (pubkey_import_of_decSeq_none raw hn)

/-- C7: the DER decode behind private- and public-key import (modelled
from the spec) rejects malformed input and never yields a key from it:
appending trailing garbage to any decodable input makes the decode fail,
a SEQUENCE holding a number of INTEGERs different from the grammar's
count (9 for private, 2 for public) fails, and a SEQUENCE in which any of
the grammar's INTEGERs - at any position, after any prefix `pre` of
well-formed INTEGERs - carries a negative (top-bit-set) leading content
octet fails. -/
theorem import_rejects_malformed :
    (∀ raw extra : List Nat, bcrypto_rsa_privkey_import raw ≠ none → extra ≠ [] →
        bcrypto_rsa_privkey_import (raw ++ extra) = none)
    ∧ (∀ vs : List Nat, vs.length ≠ 9 →
        bcrypto_rsa_privkey_import (encSeqInts vs) = none)
    ∧ (∀ (pre : List Nat) (b : Nat) (tail rest : List Nat), 128 ≤ b →
        pre.length < 9 →
        bcrypto_rsa_privkey_import
          (seqRaw (encIntList pre
            ++ ((2 :: (encLen (b :: tail).length ++ (b :: tail))) ++ rest))) = none)
    ∧ (∀ raw extra : List Nat, bcrypto_rsa_pubkey_import raw ≠ none → extra ≠ [] →
        bcrypto_rsa_pubkey_import (raw ++ extra) = none)
    ∧ (∀ vs : List Nat, vs.length ≠ 2 →
        bcrypto_rsa_pubkey_import (encSeqInts vs) = none)
    ∧ (∀ (pre : List Nat) (b : Nat) (tail rest : List Nat), 128 ≤ b →
        pre.length < 2 →
        bcrypto_rsa_pubkey_import
          (seqRaw (encIntList pre
            ++ ((2 :: (encLen (b :: tail).length ++ (b :: tail))) ++ rest))) = none) := by
  refine ⟨?_, ?_, ?_, ?_, ?_, ?_⟩
  · intro raw extra h he
    exact privkey_import_of_decSeq_none _
      (decSeqInts_append 9 raw extra (privkey_import_decSeq_ne_none raw h) he)
  · intro vs hlen
    exact privkey_import_of_decSeq_none _ (decSeqInts_wrong_count 9 vs hlen)
  · intro pre b tail rest hb hpos
    exact privkey_import_of_decSeq_none _ (decSeqInts_neg_any 9 pre b tail rest hb hpos)
  · intro raw extra h he
    exact pubkey_import_of_decSeq_none _
      (decSeqInts_append 2 raw extra (pubkey_import_decSeq_ne_none raw h) he)
  · intro vs hlen
    exact pubkey_import_of_decSeq_none _ (decSeqInts_wrong_count 2 vs hlen)
  · intro pre b tail rest hb hpos
    exact pubkey_import_of_decSeq_none _ (decSeqInts_neg_any 2 pre b tail rest hb hpos)

/-- C7 witness. -/
theorem import_rejects_malformed_witness :
    bcrypto_rsa_privkey_import (i2d_RSAPrivateKey tinyPrivVals ++ [0]) = none :=
  import_rejects_malformed.1 (i2d_RSAPrivateKey tinyPrivVals) [0] (by decide) (by decide)

/-- C9: import never validates the decoded key: whenever the DER decode
succeeds import returns the rebuilt key unconditionally, and import fails
exactly when the decode fails; a decoded key far below the 512-bit bound
(or with an even exponent) is returned as is, while export rejects the
very same key up front through `is_valid_private` / `is_valid_public`. -/
theorem import_no_validation :
    (∀ raw v, d2i_RSAPrivateKey raw = some v →
        bcrypto_rsa_privkey_import raw = some (privFromVals v))
    ∧ (∀ raw, d2i_RSAPrivateKey raw = none → bcrypto_rsa_privkey_import raw = none)
    ∧ (∀ raw n e, d2i_RSAPublicKey raw = some (n, e) →
        bcrypto_rsa_pubkey_import raw = some (pubFromVals n e))
    ∧ (∀ k, bcrypto_rsa_sane_privkey k = false → bcrypto_rsa_privkey_export k = none)
    ∧ (∀ k, bcrypto_rsa_sane_pubkey k = false → bcrypto_rsa_pubkey_export k = none)
    ∧ (bcrypto_rsa_privkey_import (i2d_RSAPrivateKey tinyPrivVals) = some tinyPrivKey
       ∧ bcrypto_rsa_sane_privkey tinyPrivKey = false
       ∧ bcrypto_rsa_privkey_export tinyPrivKey = none)
    ∧ (bcrypto_rsa_pubkey_import (i2d_RSAPublicKey 15 4) = some tinyPubKey
       ∧ bcrypto_rsa_sane_pubkey tinyPubKey = false
       ∧ bcrypto_rsa_pubkey_export tinyPubKey = none) := by
  refine ⟨?_, ?_, ?_, ?_, ?_, by decide, by decide⟩
  · intro raw v h
    unfold bcrypto_rsa_privkey_import
    rw [h]
  · intro raw h
    unfold bcrypto_rsa_privkey_import
    rw [h]
  · intro raw n e h
    unfold bcrypto_rsa_pubkey_import
    rw [h]
  · intro k hk
    unfold bcrypto_rsa_privkey_export
    rw [if_pos (by simp [hk])]
  · intro k hk
    unfold bcrypto_rsa_pubkey_export
    rw [if_pos (by simp [hk])]

/-- C9 witness. -/
theorem import_no_validation_witness :
    bcrypto_rsa_privkey_import (i2d_RSAPrivateKey tinyPrivVals)
      = some (privFromVals tinyPrivVals) :=
  import_no_validation.1 (i2d_RSAPrivateKey tinyPrivVals) tinyPrivVals (by decide)

/-- C3 witness. -/
theorem sane_privkey_iff_witness : bcrypto_rsa_sane_privkey KM = true :=
  (sane_privkey_iff KM).mpr (by decide)

/-- C4 witness. -/
theorem sane_pubkey_spec_witness : bcrypto_rsa_sane_pubkey KP511 = false :=
  (sane_pubkey_spec KP511).2.1 (by decide)

/-- C5 witness. -/
theorem verify_false_cases_witness :
    bcrypto_rsa_verify (fun _ _ _ _ => true) (some "foo") (some [1]) (some [1]) KM
      = false :=
  (verify_false_cases (fun _ _ _ _ => true) (some "foo") (some [1]) (some [1]) KM).2.1
    (by decide)

/-- C8 witness. -/
theorem needs_compute_spec_witness :
    bcrypto_rsa_privkey_compute KM = some none :=
  (needs_compute_spec KM).2.2 (by decide) (by decide)

/-- C10 witness. -/
theorem verify_sign_message_guard_witness :
    bcrypto_rsa_verify (fun _ _ _ _ => true) (some "sha256") none (some [1]) KM = false
    ∧ bcrypto_rsa_sign (fun _ _ _ => some [1]) (some "sha256") none KM = none :=
  verify_sign_message_guard (fun _ _ _ _ => true) (fun _ _ _ => some [1])
    (some "sha256") none (some [1]) KM KM (Or.inl rfl)
